import Mathlib

set_option maxHeartbeats 1000000

/-!
Verification of the node-suitecrm-client core: case conversion
(`caseConverter`), the module/relationship builder (`SuiteCrmModule`),
the flattening engine (`SuiteCrmService.flattenEntryList`) and the
argument construction of `SuiteCrmService.getEntryListRaw`,
shallowly embedded in Lean.
-/

namespace SuiteCrm

/-! ## Case converter (src `caseConverter.ts`)

`camelToSnake` is `str.replace(/[A-Z]/g, l => '_' + l.toLowerCase())`:
every ASCII uppercase letter is replaced by an underscore followed by its
lowercase form; all other characters pass through.

`snakeToCamel` is `str.replace(/_([a-z])/g, (_, l) => l.toUpperCase())`:
a left-to-right, non-overlapping scan; whenever an underscore is
immediately followed by an ASCII lowercase letter, the pair is replaced
by the uppercased letter, otherwise the scan advances one character. -/

def camelToSnakeL : List Char → List Char
  | [] => []
  | c :: rest =>
    if c.isUpper then '_' :: c.toLower :: camelToSnakeL rest
    else c :: camelToSnakeL rest

def snakeToCamelL : List Char → List Char
  | [] => []
  | [c] => [c]
  | c1 :: c2 :: rest =>
    if c1 = '_' ∧ c2.isLower = true then c2.toUpper :: snakeToCamelL rest
    else c1 :: snakeToCamelL (c2 :: rest)

def camelToSnake (s : String) : String := ⟨camelToSnakeL s.data⟩

def snakeToCamel (s : String) : String := ⟨snakeToCamelL s.data⟩

/-! ### Character-level facts used by the round-trip proof -/

theorem char_toNat_ofNat_valid (n : Nat) (h : n < 55296) :
    (Char.ofNat n).toNat = n := by
  rw [Char.ofNat, dif_pos (Or.inl h)]
  rfl

theorem char_isLower_iff (c : Char) :
    c.isLower = true ↔ 97 ≤ c.toNat ∧ c.toNat ≤ 122 := by
  simp [Char.isLower, Char.toNat, UInt32.le_def, BitVec.le_def,
    Bool.and_eq_true, decide_eq_true_eq, UInt32.toNat]

theorem char_isUpper_iff (c : Char) :
    c.isUpper = true ↔ 65 ≤ c.toNat ∧ c.toNat ≤ 90 := by
  simp [Char.isUpper, Char.toNat, UInt32.le_def, BitVec.le_def,
    Bool.and_eq_true, decide_eq_true_eq, UInt32.toNat]

theorem camelToSnakeL_eq_nil_iff (l : List Char) :
    camelToSnakeL l = [] ↔ l = [] := by
  cases l with
  | nil => simp [camelToSnakeL]
  | cons c rest =>
    constructor
    · intro h
      by_cases hu : c.isUpper = true
      · rw [camelToSnakeL, if_pos hu] at h
        exact absurd h (List.cons_ne_nil _ _)
      · rw [camelToSnakeL, if_neg hu] at h
        exact absurd h (List.cons_ne_nil _ _)
    · intro h
      exact absurd h (List.cons_ne_nil _ _)

theorem char_toLower_of_isUpper (c : Char) (h : c.isUpper = true) :
    c.toLower = Char.ofNat (c.toNat + 32) := by
  rw [char_isUpper_iff] at h
  rw [Char.toLower, if_pos ⟨h.1, h.2⟩]

theorem char_isLower_toLower (c : Char) (h : c.isUpper = true) :
    (c.toLower).isLower = true := by
  have hb := (char_isUpper_iff c).mp h
  rw [char_toLower_of_isUpper c h, char_isLower_iff,
    char_toNat_ofNat_valid (c.toNat + 32) (by omega)]
  omega

theorem char_toUpper_toLower (c : Char) (h : c.isUpper = true) :
    (c.toLower).toUpper = c := by
  have hb := (char_isUpper_iff c).mp h
  rw [char_toLower_of_isUpper c h]
  have ht : (Char.ofNat (c.toNat + 32)).toNat = c.toNat + 32 :=
    char_toNat_ofNat_valid _ (by omega)
  rw [Char.toUpper, ht, if_pos (by omega)]
  have : c.toNat + 32 - 32 = c.toNat := by omega
  rw [this, Char.ofNat_toNat]

theorem char_ne_underscore_of_isLower (c : Char) (h : c.isLower = true) :
    ¬ c = '_' := by
  intro hc
  rw [hc] at h
  simp [Char.isLower] at h

theorem char_ne_underscore_of_isDigit (c : Char) (h : c.isDigit = true) :
    ¬ c = '_' := by
  intro hc
  rw [hc] at h
  simp [Char.isDigit] at h

/-- A character drawn from the identifier alphabet the round-trip claim
ranges over: ASCII lowercase, digit, or uppercase. -/
def identChar (c : Char) : Bool :=
  c.isLower || c.isDigit || c.isUpper

theorem identChar_ne_underscore (c : Char) (h : identChar c = true) :
    ¬ c = '_' := by
  intro hc
  rw [hc] at h
  simp [identChar, Char.isLower, Char.isDigit, Char.isUpper] at h

/-! ### Round trip on the character-list level -/

theorem snake_camel_roundtripL (l : List Char)
    (h : ∀ c ∈ l, identChar c = true) :
    snakeToCamelL (camelToSnakeL l) = l := by
  induction l with
  | nil => simp [camelToSnakeL, snakeToCamelL]
  | cons c rest ih =>
    have hc : identChar c = true := h c (List.mem_cons_self c rest)
    have hrest : ∀ x ∈ rest, identChar x = true :=
      fun x hx => h x (List.mem_cons_of_mem c hx)
    by_cases hu : c.isUpper = true
    · rw [camelToSnakeL, if_pos hu]
      rw [snakeToCamelL, if_pos ⟨rfl, char_isLower_toLower c hu⟩,
        char_toUpper_toLower c hu, ih hrest]
    · rw [camelToSnakeL, if_neg hu]
      cases hr : camelToSnakeL rest with
      | nil =>
        have : rest = [] := (camelToSnakeL_eq_nil_iff rest).mp hr
        subst this
        simp [snakeToCamelL]
      | cons d ds =>
        rw [hr] at ih
        rw [snakeToCamelL,
          if_neg (fun hand => identChar_ne_underscore c hc hand.1),
          ih hrest]

/-! ## JavaScript object model

A plain JS object is modelled as an association list in property
insertion order.  `insertKV` is the semantics of `obj[k] = v` (and of a
computed key in an object literal): if the key already exists its value
is replaced in place, keeping the key's original position; otherwise the
pair is appended at the end. -/

def insertKV {α : Type} : List (String × α) → String → α → List (String × α)
  | [], k, v => [(k, v)]
  | p :: rest, k, v =>
    if p.1 = k then (k, v) :: rest else p :: insertKV rest k v

/-- Property read `m[k]` on a JS object: value of the first (unique)
entry with key `k`. -/
def lookupKV {α : Type} (m : List (String × α)) (k : String) : Option α :=
  (m.find? (fun p => p.1 = k)).map (fun p => p.2)

/-- Key list `Object.keys(m)` of a JS object. -/
def keysOf {α : Type} (m : List (String × α)) : List String :=
  m.map (fun p => p.1)

theorem lookupKV_insertKV_self {α : Type} (m : List (String × α))
    (k : String) (v : α) : lookupKV (insertKV m k v) k = some v := by
  induction m with
  | nil => simp [insertKV, lookupKV, List.find?]
  | cons p rest ih =>
    by_cases hp : p.1 = k
    · simp [insertKV, hp, lookupKV, List.find?]
    · simp only [insertKV, if_neg hp, lookupKV, List.find?]
      rw [show (decide (p.1 = k)) = false by simp [hp]]
      exact ih

theorem lookupKV_insertKV_other {α : Type} (m : List (String × α))
    (k k' : String) (v : α) (hne : ¬ k' = k) :
    lookupKV (insertKV m k v) k' = lookupKV m k' := by
  induction m with
  | nil =>
    simp [insertKV, lookupKV, List.find?,
      show ¬ (k = k') from fun hk => hne hk.symm]
  | cons p rest ih =>
    by_cases hp : p.1 = k
    · simp only [insertKV, if_pos hp, lookupKV, List.find?]
      rw [show (decide (k = k')) = false by
          simp only [decide_eq_false_iff_not]
          exact fun hk => hne hk.symm,
        show (decide (p.1 = k')) = false by
          simp only [decide_eq_false_iff_not]
          rw [hp]
          exact fun hk => hne hk.symm]
    · simp only [insertKV, if_neg hp, lookupKV, List.find?]
      cases hd : decide (p.1 = k') <;> simp_all [lookupKV]

theorem keysOf_insertKV {α : Type} (m : List (String × α)) (k : String)
    (v : α) :
    keysOf (insertKV m k v) =
      if k ∈ keysOf m then keysOf m else keysOf m ++ [k] := by
  induction m with
  | nil => simp [insertKV, keysOf]
  | cons p rest ih =>
    by_cases hp : p.1 = k
    · simp [insertKV, hp, keysOf]
    · simp only [insertKV, if_neg hp, keysOf, List.map_cons] at *
      have hkp : ¬ k = p.1 := fun hk2 => hp hk2.symm
      by_cases hk : k ∈ rest.map (fun p => p.1)
      · simp only [if_pos hk] at ih
        simp [ih, hk, hp, hkp]
      · simp only [if_neg hk] at ih
        simp [ih, hk, hp, hkp]

theorem insertKV_insertKV_same {α : Type} (m : List (String × α))
    (k : String) (v w : α) :
    insertKV (insertKV m k v) k w = insertKV m k w := by
  induction m with
  | nil => simp [insertKV]
  | cons p rest ih =>
    by_cases hp : p.1 = k
    · simp [insertKV, hp]
    · simp [insertKV, hp, ih]

theorem insertKV_append_fresh {α : Type} (m : List (String × α))
    (k : String) (v : α) (h : ¬ k ∈ keysOf m) :
    insertKV m k v = m ++ [(k, v)] := by
  induction m with
  | nil => simp [insertKV]
  | cons p rest ih =>
    have hp : ¬ p.1 = k := by
      intro hk
      exact h (by simp [keysOf, hk])
    have hrest : ¬ k ∈ keysOf rest := by
      intro hk
      refine h ?_
      simp only [keysOf, List.map_cons, List.mem_cons]
      exact Or.inr (by simpa [keysOf] using hk)
    simp [insertKV, hp, ih hrest]

/-! ## Module / relationship builder (src `SuiteCrmModule.ts`)

`SuiteCrmModule` keeps the remote module `name` and the `links` object
(relationship map, keyed by the camelCase form of the link name).
`withLink` builds `{...this.links, [snakeToCamel(linkName)]: rel}` and
returns a new module; the receiver is untouched. -/

mutual
inductive SuiteCrmModule : Type where
  | mk (name : String) (links : List (String × SuiteCrmRelationship))

inductive SuiteCrmRelationship : Type where
  | mk (linkName : String) (relatedModule : SuiteCrmModule)
end

def SuiteCrmModule.name : SuiteCrmModule → String
  | .mk n _ => n

def SuiteCrmModule.links : SuiteCrmModule → List (String × SuiteCrmRelationship)
  | .mk _ ls => ls

def SuiteCrmRelationship.linkName : SuiteCrmRelationship → String
  | .mk n _ => n

def SuiteCrmRelationship.relatedModule : SuiteCrmRelationship → SuiteCrmModule
  | .mk _ m => m

def withLink (m : SuiteCrmModule) (linkName : String)
    (relatedModule : SuiteCrmModule) : SuiteCrmModule :=
  .mk m.name
    (insertKV m.links (snakeToCamel linkName)
      (.mk linkName relatedModule))

/-! ## Raw response model (src `suitecrm.ts` types)

`EntryListResponse` mirrors the wire shape of `get_entry_list`: an
optional primary `entry_list` (each entry an optional
`name_value_list`, a record of field name to `NameValue`), and an
optional `relationship_list` paired index-for-index with the primary
list, each entry holding an optional `link_list` of link groups, each
group a `name` plus optional `records`, each record an optional
`link_value` record of field name to `NameValue`.  Values are opaque
(`α`). -/

structure NameValue (α : Type) where
  name : String
  value : α
deriving DecidableEq

structure Entry (α : Type) where
  name_value_list : Option (List (String × NameValue α))
deriving DecidableEq

structure LinkRecord (α : Type) where
  link_value : Option (List (String × NameValue α))
deriving DecidableEq

structure LinkList (α : Type) where
  name : String
  records : Option (List (LinkRecord α))
deriving DecidableEq

structure RelEntry (α : Type) where
  link_list : Option (List (LinkList α))
deriving DecidableEq

structure EntryListResponse (α : Type) where
  entry_list : Option (List (Entry α))
  relationship_list : Option (List (RelEntry α))
deriving DecidableEq

/-! ## Flattening engine (src `SuiteCrmService.flattenEntryList`)

The body of the `for (let i ...)` loop, for one primary entry and the
relationship entry found at the same index (if any): first every own
field is written at its camelCase key, then, group by group and record
by record, every link field is written at
`snakeToCamel(linkName + "_" + fieldName)`; each write is a plain JS
property assignment on the accumulating `flatEntry` object. -/

def flattenOneEntry {α : Type} (entry : Entry α) (relEntry : Option (RelEntry α)) :
    List (String × α) :=
  let flatEntry : List (String × α) :=
    (entry.name_value_list.getD []).foldl
      (fun m kv => insertKV m (snakeToCamel kv.1) kv.2.value) []
  match relEntry with
  | none => flatEntry
  | some relationship =>
    (relationship.link_list.getD []).foldl
      (fun m link =>
        (link.records.getD []).foldl
          (fun m record =>
            (record.link_value.getD []).foldl
              (fun m fv =>
                insertKV m (snakeToCamel (link.name ++ "_" ++ fv.1)) fv.2.value)
              m)
          m)
      flatEntry

/-- The indexed loop `for (let i = 0; i < entryList.length; i++)`,
pushing one flat record per primary entry; `relationshipList[i]` is an
out-of-range (hence absent) lookup when the relationship list is
shorter. -/
def flattenLoop {α : Type} (relationshipList : List (RelEntry α)) :
    Nat → List (Entry α) → List (List (String × α))
  | _, [] => []
  | i, entry :: rest =>
    flattenOneEntry entry relationshipList[i]? ::
      flattenLoop relationshipList (i + 1) rest

def flattenEntryList {α : Type} (result : EntryListResponse α) :
    List (List (String × α)) :=
  flattenLoop (result.relationship_list.getD []) 0 (result.entry_list.getD [])

/-! ### Assignment-sequence view of one entry's flattening

The loop body performs a sequence of key/value writes; these
definitions name that sequence and the fold that replays it, so the
flattening of one entry can be reasoned about as
`applyAssignments [] (entryAssignments ...)`. -/

def applyAssignments {α : Type} (init : List (String × α))
    (asgs : List (String × α)) : List (String × α) :=
  asgs.foldl (fun m kv => insertKV m kv.1 kv.2) init

def ownAssignments {α : Type} (entry : Entry α) : List (String × α) :=
  (entry.name_value_list.getD []).map
    (fun kv => (snakeToCamel kv.1, kv.2.value))

def relAssignments {α : Type} (relationship : RelEntry α) : List (String × α) :=
  (relationship.link_list.getD []).foldl
    (fun acc link =>
      acc ++ (link.records.getD []).foldl
        (fun acc2 record =>
          acc2 ++ (record.link_value.getD []).map
            (fun fv => (snakeToCamel (link.name ++ "_" ++ fv.1), fv.2.value)))
        [])
    []

def relAssignmentsOpt {α : Type} : Option (RelEntry α) → List (String × α)
  | none => []
  | some relationship => relAssignments relationship

def entryAssignments {α : Type} (entry : Entry α)
    (relEntry : Option (RelEntry α)) : List (String × α) :=
  ownAssignments entry ++ relAssignmentsOpt relEntry

/-- Value of the last write to key `k` in an assignment sequence. -/
def lastAssign {α : Type} (asgs : List (String × α)) (k : String) : Option α :=
  (asgs.reverse.find? (fun p => p.1 = k)).map (fun p => p.2)

theorem applyAssignments_append {α : Type} (init asgs1 asgs2 : List (String × α)) :
    applyAssignments init (asgs1 ++ asgs2) =
      applyAssignments (applyAssignments init asgs1) asgs2 := by
  simp [applyAssignments, List.foldl_append]

theorem lastAssign_append {α : Type} (asgs1 asgs2 : List (String × α))
    (k : String) :
    lastAssign (asgs1 ++ asgs2) k =
      (lastAssign asgs2 k).or (lastAssign asgs1 k) := by
  simp only [lastAssign, List.reverse_append, List.find?_append]
  cases h : asgs2.reverse.find? (fun p => p.1 = k) <;> simp [Option.or]

theorem lookupKV_applyAssignments {α : Type} (asgs : List (String × α)) :
    ∀ (init : List (String × α)) (k : String),
      lookupKV (applyAssignments init asgs) k =
        (lastAssign asgs k).or (lookupKV init k) := by
  induction asgs with
  | nil => intro init k; simp [applyAssignments, lastAssign, Option.or]
  | cons kv rest ih =>
    intro init k
    have hstep : applyAssignments init (kv :: rest) =
        applyAssignments (insertKV init kv.1 kv.2) rest := by
      simp [applyAssignments]
    rw [hstep, ih]
    have hlast : lastAssign (kv :: rest) k =
        (lastAssign rest k).or (if kv.1 = k then some kv.2 else none) := by
      have : kv :: rest = [kv] ++ rest := by simp
      rw [this, lastAssign_append]
      by_cases hk : kv.1 = k
      · simp [lastAssign, List.find?, hk]
      · simp [lastAssign, List.find?, hk]
    rw [hlast]
    by_cases hk : kv.1 = k
    · subst hk
      rw [lookupKV_insertKV_self]
      simp only [if_pos rfl]
      cases h : lastAssign rest kv.1 <;> simp [Option.or]
    · rw [lookupKV_insertKV_other init kv.1 k kv.2 (fun h => hk h.symm)]
      simp only [if_neg hk]
      cases h : lastAssign rest k <;> simp [Option.or]

theorem foldl_append_shift {β γ : Type} (g : β → List γ) (l : List β) :
    ∀ acc : List γ, l.foldl (fun a x => a ++ g x) acc =
      acc ++ l.foldl (fun a x => a ++ g x) [] := by
  induction l with
  | nil => intro acc; simp
  | cons x xs ih =>
    intro acc
    simp only [List.foldl_cons]
    rw [ih (acc ++ g x), ih ([] ++ g x)]
    simp [List.append_assoc]

theorem applyAssignments_foldl_concat {β α : Type} (g : β → List (String × α))
    (l : List β) :
    ∀ init, applyAssignments init (l.foldl (fun acc x => acc ++ g x) []) =
      l.foldl (fun m x => applyAssignments m (g x)) init := by
  induction l with
  | nil => intro init; simp [applyAssignments]
  | cons x xs ih =>
    intro init
    simp only [List.foldl_cons, List.nil_append]
    rw [foldl_append_shift g xs (g x), applyAssignments_append, ih]

theorem applyAssignments_map {β α : Type} (f : β → String × α) (l : List β)
    (init : List (String × α)) :
    applyAssignments init (l.map f) =
      l.foldl (fun m x => insertKV m (f x).1 (f x).2) init := by
  simp [applyAssignments, List.foldl_map]

/-- The literal loop body of `flattenEntryList` for one entry replays
exactly the entry's assignment sequence, own fields first, then the
relationship fields in response order. -/
theorem flattenOneEntry_eq_applyAssignments {α : Type} (entry : Entry α)
    (relEntry : Option (RelEntry α)) :
    flattenOneEntry entry relEntry =
      applyAssignments [] (entryAssignments entry relEntry) := by
  have hown : (entry.name_value_list.getD []).foldl
      (fun m kv => insertKV m (snakeToCamel kv.1) kv.2.value) [] =
      applyAssignments [] (ownAssignments entry) := by
    rw [ownAssignments, applyAssignments_map]
  cases relEntry with
  | none =>
    simp only [flattenOneEntry, entryAssignments, relAssignmentsOpt,
      List.append_nil]
    exact hown
  | some relationship =>
    simp only [flattenOneEntry, entryAssignments, relAssignmentsOpt]
    rw [applyAssignments_append, ← hown, relAssignments,
      applyAssignments_foldl_concat]
    have hrec : (fun (m : List (String × α)) (link : LinkList α) =>
        applyAssignments m
          ((link.records.getD []).foldl
            (fun acc2 record =>
              acc2 ++ (record.link_value.getD []).map
                (fun fv =>
                  (snakeToCamel (link.name ++ "_" ++ fv.1), fv.2.value)))
            [])) =
        (fun (m : List (String × α)) (link : LinkList α) =>
          (link.records.getD []).foldl
            (fun m record =>
              (record.link_value.getD []).foldl
                (fun m fv =>
                  insertKV m (snakeToCamel (link.name ++ "_" ++ fv.1))
                    fv.2.value)
                m)
            m) := by
      funext m link
      rw [applyAssignments_foldl_concat]
      have hfield : (fun (m : List (String × α)) (record : LinkRecord α) =>
          applyAssignments m
            ((record.link_value.getD []).map
              (fun fv =>
                (snakeToCamel (link.name ++ "_" ++ fv.1), fv.2.value)))) =
          (fun (m : List (String × α)) (record : LinkRecord α) =>
            (record.link_value.getD []).foldl
              (fun m fv =>
                insertKV m (snakeToCamel (link.name ++ "_" ++ fv.1))
                  fv.2.value)
              m) := by
        funext m record
        rw [applyAssignments_map]
      rw [hfield]
    rw [hrec]

theorem mem_keysOf_insertKV {α : Type} (m : List (String × α))
    (k k' : String) (v : α) :
    k' ∈ keysOf (insertKV m k v) ↔ k' ∈ keysOf m ∨ k' = k := by
  rw [keysOf_insertKV]
  by_cases h : k ∈ keysOf m
  · rw [if_pos h]
    constructor
    · exact fun hm => Or.inl hm
    · rintro (hm | rfl)
      · exact hm
      · exact h
  · rw [if_neg h]
    simp [List.mem_append]

theorem mem_keysOf_applyAssignments {α : Type} (asgs : List (String × α)) :
    ∀ (init : List (String × α)) (k : String),
      k ∈ keysOf (applyAssignments init asgs) ↔
        k ∈ keysOf init ∨ k ∈ keysOf asgs := by
  induction asgs with
  | nil => intro init k; simp [applyAssignments, keysOf]
  | cons kv rest ih =>
    intro init k
    have hstep : applyAssignments init (kv :: rest) =
        applyAssignments (insertKV init kv.1 kv.2) rest := by
      simp [applyAssignments]
    rw [hstep, ih, mem_keysOf_insertKV]
    simp only [keysOf, List.map_cons, List.mem_cons]
    tauto

theorem flattenLoop_length {α : Type} (relationshipList : List (RelEntry α)) :
    ∀ (i : Nat) (es : List (Entry α)),
      (flattenLoop relationshipList i es).length = es.length := by
  intro i es
  induction es generalizing i with
  | nil => simp [flattenLoop]
  | cons e rest ih => simp [flattenLoop, ih]

theorem flattenLoop_getElem {α : Type} (relationshipList : List (RelEntry α)) :
    ∀ (es : List (Entry α)) (i j : Nat) (hj : j < es.length),
      (flattenLoop relationshipList i es).get
          ⟨j, by rw [flattenLoop_length]; exact hj⟩ =
        flattenOneEntry (es.get ⟨j, hj⟩) relationshipList[i + j]? := by
  intro es
  induction es with
  | nil => intro i j hj; exact absurd hj (by simp)
  | cons e rest ih =>
    intro i j hj
    cases j with
    | zero => simp [flattenLoop]
    | succ j' =>
      have hj' : j' < rest.length := by simpa using hj
      have := ih (i + 1) j' hj'
      simp only [flattenLoop, List.get_cons_succ]
      rw [this]
      congr 2
      omega

theorem flattenEntryList_length {α : Type} (result : EntryListResponse α) :
    (flattenEntryList result).length = (result.entry_list.getD []).length := by
  rw [flattenEntryList, flattenLoop_length]

theorem flattenEntryList_getElem {α : Type} (result : EntryListResponse α)
    (j : Nat) (hj : j < (result.entry_list.getD []).length)
    (hj2 : j < (flattenEntryList result).length) :
    (flattenEntryList result).get ⟨j, hj2⟩ =
      flattenOneEntry ((result.entry_list.getD []).get ⟨j, hj⟩)
        (result.relationship_list.getD [])[j]? := by
  have := flattenLoop_getElem (result.relationship_list.getD [])
    (result.entry_list.getD []) 0 j hj
  simpa using this

/-! ## Deep case conversion (src `caseConverter.ts`,
`objectToSnakeCase` / `objectToCamelCase`)

JS runtime values as seen by the converters: `vnull` covers
`null`/`undefined`; `prim` a primitive (string/number/boolean, opaque);
`arr` an array; `obj` a plain object (`constructor === Object`);
`exotic` any other non-null `typeof 'object'` value (`Date`,
`Object.create(null)`, class instances, ...), whose own enumerable
entries are modelled as empty.

The converter branches, per the source:
* a direct value that is `null`/`undefined` is kept;
* a direct array value is mapped element-wise, where an element that is
  any non-null object (`typeof item === 'object'`) — plain object,
  array, or exotic — is passed to the object converter (so a nested
  array element is rebuilt as an index-keyed plain object, and an
  exotic element as an empty plain object), and any other element is
  kept;
* a direct plain-object value is converted recursively;
* anything else is kept. -/

inductive JsValue : Type where
  | vnull : JsValue
  | prim (s : String) : JsValue
  | arr (xs : List JsValue) : JsValue
  | obj (fields : List (String × JsValue)) : JsValue
  | exotic (tag : String) : JsValue

mutual
def snakeVal : JsValue → JsValue
  | .vnull => .vnull
  | .prim s => .prim s
  | .exotic t => .exotic t
  | .arr xs => .arr (snakeItems xs)
  | .obj fs => .obj (snakeFields fs)

def snakeItems : List JsValue → List JsValue
  | [] => []
  | .vnull :: rest => .vnull :: snakeItems rest
  | .prim s :: rest => .prim s :: snakeItems rest
  | .exotic _ :: rest => .obj [] :: snakeItems rest
  | .arr xs :: rest => .obj (snakeIdxFields 0 xs) :: snakeItems rest
  | .obj fs :: rest => .obj (snakeFields fs) :: snakeItems rest

def snakeIdxFields : Nat → List JsValue → List (String × JsValue)
  | _, [] => []
  | i, v :: rest =>
    (camelToSnake (toString i), snakeVal v) :: snakeIdxFields (i + 1) rest

def snakeFields : List (String × JsValue) → List (String × JsValue)
  | [] => []
  | (k, v) :: rest => (camelToSnake k, snakeVal v) :: snakeFields rest
end

def objectToSnakeCase (fields : List (String × JsValue)) :
    List (String × JsValue) :=
  snakeFields fields

mutual
def camelVal : JsValue → JsValue
  | .vnull => .vnull
  | .prim s => .prim s
  | .exotic t => .exotic t
  | .arr xs => .arr (camelItems xs)
  | .obj fs => .obj (camelFields fs)

def camelItems : List JsValue → List JsValue
  | [] => []
  | .vnull :: rest => .vnull :: camelItems rest
  | .prim s :: rest => .prim s :: camelItems rest
  | .exotic _ :: rest => .obj [] :: camelItems rest
  | .arr xs :: rest => .obj (camelIdxFields 0 xs) :: camelItems rest
  | .obj fs :: rest => .obj (camelFields fs) :: camelItems rest

def camelIdxFields : Nat → List JsValue → List (String × JsValue)
  | _, [] => []
  | i, v :: rest =>
    (snakeToCamel (toString i), camelVal v) :: camelIdxFields (i + 1) rest

def camelFields : List (String × JsValue) → List (String × JsValue)
  | [] => []
  | (k, v) :: rest => (snakeToCamel k, camelVal v) :: camelFields rest
end

def objectToCamelCase (fields : List (String × JsValue)) :
    List (String × JsValue) :=
  camelFields fields

/-! ## `getEntryListRaw` argument construction
(src `SuiteCrmService.getEntryListRaw`) -/

structure LinkQuery : Type where
  linkName : String
  selectedFields : List String

structure GetEntryListOptions : Type where
  module : SuiteCrmModule
  query : String
  orderBy : Option String
  offset : Option Int
  selectedFields : Option (List String)
  linkNameToFieldsArray : Option (List LinkQuery)
  maxResults : Option Int
  deleted : Option Bool

structure GetEntryListArgs : Type where
  module_name : String
  query : String
  order_by : String
  offset : Int
  select_fields : List String
  link_name_to_fields_array : List (String × List String)
  max_results : Int
  deleted : Nat

/-- The `entryArgs` object literal built by `getEntryListRaw`.
`options.orderBy ? camelToSnake(options.orderBy) : ''` is falsy both
when the option is absent and when it is the empty string. -/
def getEntryListArgs (options : GetEntryListOptions) : GetEntryListArgs :=
  { module_name := options.module.name
    query := options.query
    order_by :=
      match options.orderBy with
      | some s => if s = "" then "" else camelToSnake s
      | none => ""
    offset := options.offset.getD 0
    select_fields := (options.selectedFields.getD []).map camelToSnake
    link_name_to_fields_array :=
      (options.linkNameToFieldsArray.getD []).map
        (fun item => (item.linkName, item.selectedFields.map camelToSnake))
    max_results := options.maxResults.getD 20
    deleted := if options.deleted = some true then 1 else 0 }

/-! ## Shared helper lemmas for the claim theorems -/

theorem mem_foldl_concat {β γ : Type} (g : β → List γ) (l : List β) (a : γ) :
    a ∈ l.foldl (fun acc x => acc ++ g x) [] ↔ ∃ x ∈ l, a ∈ g x := by
  induction l with
  | nil => simp
  | cons x xs ih =>
    simp only [List.foldl_cons, List.nil_append]
    rw [foldl_append_shift g xs (g x)]
    simp only [List.mem_append, ih, List.mem_cons]
    constructor
    · rintro (h | ⟨y, hy, hay⟩)
      · exact ⟨x, Or.inl rfl, h⟩
      · exact ⟨y, Or.inr hy, hay⟩
    · rintro ⟨y, hy | hy, hay⟩
      · subst hy
        exact Or.inl hay
      · exact Or.inr ⟨y, hy, hay⟩

theorem find?_of_countP_one {γ : Type} (p : γ → Bool) (l : List γ) (a : γ)
    (hone : l.countP p = 1) (ha : a ∈ l) (hpa : p a = true) :
    l.find? p = some a := by
  induction l with
  | nil => exact absurd ha (by simp)
  | cons x xs ih =>
    by_cases hx : p x = true
    · have hzero : xs.countP p = 0 := by
        rw [List.countP_cons, if_pos hx] at hone
        omega
      have hax : a = x := by
        rcases List.mem_cons.mp ha with h | h
        · exact h
        · exfalso
          have : 0 < xs.countP p := List.countP_pos_iff.mpr ⟨a, h, hpa⟩
          omega
      rw [List.find?, hx, hax]
    · have hax : ¬ a = x := by
        intro h
        rw [h] at hpa
        exact hx hpa
      have ha' : a ∈ xs := by
        rcases List.mem_cons.mp ha with h | h
        · exact absurd h hax
        · exact h
      have hone' : xs.countP p = 1 := by
        rw [List.countP_cons, if_neg hx] at hone
        omega
      rw [List.find?, Bool.eq_false_iff.mpr hx]
      exact ih hone' ha'

theorem lastAssign_of_unique {α : Type} (asgs : List (String × α))
    (k : String) (v : α)
    (hone : asgs.countP (fun p => p.1 = k) = 1) (hmem : (k, v) ∈ asgs) :
    lastAssign asgs k = some v := by
  have hone' : asgs.reverse.countP (fun p => decide (p.1 = k)) = 1 := by
    rw [List.countP_eq_length_filter, List.filter_reverse,
      List.length_reverse, ← List.countP_eq_length_filter]
    exact hone
  have hfind := find?_of_countP_one (fun p => decide (p.1 = k)) asgs.reverse
    (k, v) hone' (List.mem_reverse.mpr hmem) (by simp)
  rw [lastAssign, hfind]
  rfl

/-- Reading a flattened record returns the last write to that key in the
entry's assignment sequence (own fields first, then relationship
fields, in response order). -/
theorem lookupKV_flattenEntryList {α : Type} (result : EntryListResponse α)
    (j : Nat) (hj : j < (result.entry_list.getD []).length)
    (hj2 : j < (flattenEntryList result).length) (k : String) :
    lookupKV ((flattenEntryList result).get ⟨j, hj2⟩) k =
      lastAssign
        (entryAssignments ((result.entry_list.getD []).get ⟨j, hj⟩)
          (result.relationship_list.getD [])[j]?) k := by
  rw [flattenEntryList_getElem result j hj hj2,
    flattenOneEntry_eq_applyAssignments, lookupKV_applyAssignments]
  cases h : lastAssign
      (entryAssignments ((result.entry_list.getD []).get ⟨j, hj⟩)
        (result.relationship_list.getD [])[j]?) k <;>
    simp [Option.or, lookupKV, List.find?]

theorem keysOf_append {α : Type} (m1 m2 : List (String × α)) :
    keysOf (m1 ++ m2) = keysOf m1 ++ keysOf m2 := by
  simp [keysOf]

theorem mem_keysOf_flattenOneEntry {α : Type} (entry : Entry α)
    (relEntry : Option (RelEntry α)) (k : String) (v : α)
    (hmem : (k, v) ∈ entryAssignments entry relEntry) :
    k ∈ keysOf (flattenOneEntry entry relEntry) := by
  rw [flattenOneEntry_eq_applyAssignments]
  rw [mem_keysOf_applyAssignments]
  right
  exact List.mem_map.mpr ⟨(k, v), hmem, rfl⟩

theorem mem_relAssignments {α : Type} (relationship : RelEntry α)
    (link : LinkList α) (hlink : link ∈ relationship.link_list.getD [])
    (record : LinkRecord α) (hrecord : record ∈ link.records.getD [])
    (fv : String × NameValue α) (hfv : fv ∈ record.link_value.getD []) :
    (snakeToCamel (link.name ++ "_" ++ fv.1), fv.2.value) ∈
      relAssignments relationship := by
  rw [relAssignments, mem_foldl_concat]
  refine ⟨link, hlink, ?_⟩
  rw [mem_foldl_concat]
  refine ⟨record, hrecord, ?_⟩
  exact List.mem_map.mpr ⟨fv, hfv, rfl⟩

/-! ## Claim theorems -/

/-- Claim C8: for every string composed of ASCII lowercase letters and
digits with internal uppercase-letter word boundaries (no pre-existing
underscores, no leading uppercase), `toInternal (toExternal s) = s`,
where `toExternal` is `camelToSnake` and `toInternal` is
`snakeToCamel`. -/
theorem claimC8_case_conversion_roundtrip (s : String)
    (hchars : ∀ c ∈ s.data, identChar c = true)
    (hhead : ∀ c, s.data.head? = some c → ¬ c.isUpper = true) :
    snakeToCamel (camelToSnake s) = s := by
  cases s with
  | mk data =>
    rw [camelToSnake, snakeToCamel]
    exact congrArg String.mk (snake_camel_roundtripL data hchars)

theorem claimC8_case_conversion_roundtrip_witness :
    (∀ c ∈ ("fitacFitacProy" : String).data, identChar c = true) ∧
    snakeToCamel (camelToSnake "fitacFitacProy") = "fitacFitacProy" :=
  ⟨by decide,
   claimC8_case_conversion_roundtrip "fitacFitacProy" (by decide)
     (by decide)⟩

/-- Claim C1 counterexample: `"a_b"` and `"aB"` both normalize to the
internal key `"aB"`, yet deriving a module with both relationships
raises no configuration error: `withLink` is total and the resulting
descriptor silently keeps only the second relationship. -/
theorem claimC1_counterexample :
    snakeToCamel "a_b" = snakeToCamel "aB" ∧
    (withLink (withLink (.mk "Fitac_fitac" []) "a_b" (.mk "proy_Proyectos" []))
        "aB" (.mk "proy_Proyectos" [])).links =
      [("aB", .mk "aB" (.mk "proy_Proyectos" []))] :=
  ⟨by decide, rfl⟩

/-- Claim C1 amended: deriving a Module Descriptor with a second
relationship whose remote name normalizes (via `snakeToCamel`) to the
same internal key as an already-present relationship raises no error at
construction time; `withLink` silently keeps only the last colliding
relationship, so the derived descriptor's relationship map equals the
map obtained by adding only the second relationship, and the collision
key holds the second relationship. -/
theorem claimC1_collision_last_wins (m t1 t2 : SuiteCrmModule)
    (k1 k2 : String) (hcol : snakeToCamel k1 = snakeToCamel k2) :
    (withLink (withLink m k1 t1) k2 t2).links = (withLink m k2 t2).links ∧
    lookupKV (withLink (withLink m k1 t1) k2 t2).links (snakeToCamel k1) =
      some (.mk k2 t2) := by
  have hlinks : (withLink (withLink m k1 t1) k2 t2).links =
      insertKV (insertKV m.links (snakeToCamel k1) (.mk k1 t1))
        (snakeToCamel k2) (.mk k2 t2) := rfl
  rw [hlinks, ← hcol, insertKV_insertKV_same]
  constructor
  · show insertKV m.links (snakeToCamel k1) (.mk k2 t2) =
      insertKV m.links (snakeToCamel k2) (.mk k2 t2)
    rw [hcol]
  · exact lookupKV_insertKV_self m.links (snakeToCamel k1) (.mk k2 t2)

theorem claimC1_collision_last_wins_witness :
    snakeToCamel "a_b" = snakeToCamel "aB" ∧
    (withLink (withLink (.mk "M" []) "a_b" (.mk "T1" [])) "aB"
        (.mk "T2" [])).links =
      (withLink (.mk "M" []) "aB" (.mk "T2" [])).links :=
  ⟨by decide,
   (claimC1_collision_last_wins (.mk "M" []) (.mk "T1" []) (.mk "T2" [])
     "a_b" "aB" (by decide)).1⟩

/-- Claim C5 counterexample: when the normalized key is already present
on the descriptor, the returned descriptor's map is not the input map
plus one new entry — adding `"aB"` to a descriptor already holding key
`"aB"` keeps the key count at one instead of raising it to two. -/
theorem claimC5_counterexample :
    (withLink (withLink (.mk "M" []) "aB" (.mk "T" [])) "aB"
        (.mk "T2" [])).links.length = 1 ∧
    (withLink (.mk "M" []) "aB" (.mk "T" [])).links.length = 1 :=
  ⟨rfl, rfl⟩

/-- Claim C5 amended: `withLink m k t` never mutates `m` (the builder is
a pure function of its input: `m`, its name and its relationship map
are whatever they were before the call), and provided the normalized
key `snakeToCamel k` is not already present on `m`, the returned
descriptor's map is `m`'s map plus exactly one new entry keyed by the
normalized form of `k` (appended at the end, the prior entries shared
unchanged, every other key's lookup preserved); if the key is already
present, the entry is instead replaced and the key count stays the
same. -/
theorem claimC5_withLink_pure_plus_one (m t : SuiteCrmModule) (k : String)
    (hfresh : ¬ snakeToCamel k ∈ keysOf m.links) :
    (withLink m k t).links = m.links ++ [(snakeToCamel k, .mk k t)] ∧
    (withLink m k t).links.length = m.links.length + 1 ∧
    keysOf (withLink m k t).links = keysOf m.links ++ [snakeToCamel k] ∧
    (∀ k', ¬ k' = snakeToCamel k →
      lookupKV (withLink m k t).links k' = lookupKV m.links k') ∧
    (withLink m k t).name = m.name := by
  have happ : (withLink m k t).links =
      m.links ++ [(snakeToCamel k, .mk k t)] :=
    insertKV_append_fresh m.links (snakeToCamel k) (.mk k t) hfresh
  refine ⟨happ, ?_, ?_, ?_, rfl⟩
  · rw [happ]
    simp
  · rw [happ, keysOf_append]
    rfl
  · intro k' hk'
    exact lookupKV_insertKV_other m.links (snakeToCamel k) k' (.mk k t) hk'

theorem claimC5_withLink_pure_plus_one_witness :
    ¬ ("aB" : String) ∈ keysOf (SuiteCrmModule.mk "M" []).links ∧
    (withLink (.mk "M" []) "a_b" (.mk "T" [])).links =
      [("aB", .mk "a_b" (.mk "T" []))] := by
  have h := claimC5_withLink_pure_plus_one (.mk "M" []) (.mk "T" []) "a_b"
    (by decide)
  exact ⟨by decide, h.1⟩

/-- Claim C10: the arguments `getEntryListRaw` builds for the boundary
call default as follows when the corresponding option is omitted:
`order_by` is `""`, `offset` is `0`, `select_fields` is `[]`,
`link_name_to_fields_array` is `[]`, `max_results` is `20`; and
`deleted` is sent as `1` exactly when the `deleted` option equals
`true`, otherwise `0`. -/
theorem claimC10_entry_args_defaults (o : GetEntryListOptions) :
    (o.orderBy = none → (getEntryListArgs o).order_by = "") ∧
    (o.offset = none → (getEntryListArgs o).offset = 0) ∧
    (o.selectedFields = none → (getEntryListArgs o).select_fields = []) ∧
    (o.linkNameToFieldsArray = none →
      (getEntryListArgs o).link_name_to_fields_array = []) ∧
    (o.maxResults = none → (getEntryListArgs o).max_results = 20) ∧
    ((getEntryListArgs o).deleted = 1 ↔ o.deleted = some true) ∧
    (¬ o.deleted = some true → (getEntryListArgs o).deleted = 0) := by
  refine ⟨?_, ?_, ?_, ?_, ?_, ?_, ?_⟩
  · intro h; simp [getEntryListArgs, h]
  · intro h; simp [getEntryListArgs, h]
  · intro h; simp [getEntryListArgs, h]
  · intro h; simp [getEntryListArgs, h]
  · intro h; simp [getEntryListArgs, h]
  · by_cases h : o.deleted = some true <;> simp [getEntryListArgs, h]
  · intro h; simp [getEntryListArgs, h]

theorem claimC10_entry_args_defaults_witness :
    (getEntryListArgs
        { module := .mk "Contacts" [], query := "", orderBy := none,
          offset := none, selectedFields := none,
          linkNameToFieldsArray := none, maxResults := none,
          deleted := none }).order_by = "" ∧
    (getEntryListArgs
        { module := .mk "Contacts" [], query := "", orderBy := none,
          offset := none, selectedFields := none,
          linkNameToFieldsArray := none, maxResults := none,
          deleted := none }).max_results = 20 := by
  have h := claimC10_entry_args_defaults
    { module := .mk "Contacts" [], query := "", orderBy := none,
      offset := none, selectedFields := none,
      linkNameToFieldsArray := none, maxResults := none, deleted := none }
  exact ⟨h.1 rfl, h.2.2.2.2.1 rfl⟩

/-! ### Example raw responses used by the witnesses -/

def exTwoSubRecords : EntryListResponse String :=
  { entry_list := some [{ name_value_list := some [("id", ⟨"id", "1"⟩)] }],
    relationship_list := some
      [{ link_list := some
          [{ name := "contacts",
             records := some
               [{ link_value := some [("email1", ⟨"email1", "a"⟩)] },
                { link_value := some [("email1", ⟨"email1", "b"⟩)] }] }] }] }

def exContactsRecord : LinkRecord String :=
  { link_value := some [("email1", ⟨"email1", "x@y.com"⟩)] }

def exContactsLink : LinkList String :=
  { name := "contacts", records := some [exContactsRecord] }

def exContactsRel : RelEntry String :=
  { link_list := some [exContactsLink] }

def exContacts : EntryListResponse String :=
  { entry_list := some [{ name_value_list := some [("id", ⟨"id", "1"⟩)] }],
    relationship_list := some [exContactsRel] }

def exOwnCollision : EntryListResponse String :=
  { entry_list := some
      [{ name_value_list :=
           some [("a_b", ⟨"a_b", "1"⟩), ("aB", ⟨"aB", "2"⟩)] }],
    relationship_list := none }

def exSimpleOwn : EntryListResponse String :=
  { entry_list := some
      [{ name_value_list :=
           some [("id", ⟨"id", "1"⟩),
             ("first_name", ⟨"first_name", "A"⟩)] }],
    relationship_list := none }

def exNoRelEntry : EntryListResponse String :=
  { entry_list := some [{ name_value_list := some [("id", ⟨"id", "7"⟩)] }],
    relationship_list := some [] }

/-- Claim C2: when several relationship sub-records at the same primary
index write the same flattened composite key, the flattened record
holds the value of the last write in response order: for every raw
response, index and key, the lookup of the flattened record equals the
last assignment to that key in the entry's assignment sequence, which
lists own fields and then relationship fields exactly in the order the
raw response presents link groups, sub-records and fields
(last-write-wins). -/
theorem claimC2_last_write_wins {α : Type} (result : EntryListResponse α)
    (j : Nat) (hj : j < (result.entry_list.getD []).length)
    (hj2 : j < (flattenEntryList result).length) (k : String) :
    lookupKV ((flattenEntryList result).get ⟨j, hj2⟩) k =
      lastAssign
        (entryAssignments ((result.entry_list.getD []).get ⟨j, hj⟩)
          (result.relationship_list.getD [])[j]?) k :=
  lookupKV_flattenEntryList result j hj hj2 k

theorem claimC2_last_write_wins_witness :
    lookupKV ((flattenEntryList exTwoSubRecords).get ⟨0, by decide⟩)
        "contactsEmail1" =
      lastAssign
        (entryAssignments ((exTwoSubRecords.entry_list.getD []).get
            ⟨0, by decide⟩)
          (exTwoSubRecords.relationship_list.getD [])[0]?) "contactsEmail1" ∧
    lookupKV ((flattenEntryList exTwoSubRecords).get ⟨0, by decide⟩)
        "contactsEmail1" = some "b" :=
  ⟨claimC2_last_write_wins exTwoSubRecords 0 (by decide) (by decide)
      "contactsEmail1",
   by decide⟩

/-- Claim C3: for every primary index that has a relationship-expansion
entry, every link group, sub-record and field pair of that entry is
written at the composite key
`snakeToCamel (relationshipRemoteName ++ "_" ++ remoteFieldKey)`: the
pair belongs to the entry's assignment sequence and the key is present
in the flattened record; e.g. relationship `contacts` with sub-record
field `email1` yields the key `contactsEmail1`. -/
theorem claimC3_relationship_composite_keys :
    (∀ {α : Type} (result : EntryListResponse α) (j : Nat)
      (hj : j < (result.entry_list.getD []).length)
      (hj2 : j < (flattenEntryList result).length)
      (relationship : RelEntry α),
      (result.relationship_list.getD [])[j]? = some relationship →
      ∀ link ∈ relationship.link_list.getD [],
      ∀ record ∈ link.records.getD [],
      ∀ fv ∈ record.link_value.getD [],
        (snakeToCamel (link.name ++ "_" ++ fv.1), fv.2.value) ∈
          entryAssignments ((result.entry_list.getD []).get ⟨j, hj⟩)
            (some relationship) ∧
        snakeToCamel (link.name ++ "_" ++ fv.1) ∈
          keysOf ((flattenEntryList result).get ⟨j, hj2⟩)) ∧
    snakeToCamel ("contacts" ++ "_" ++ "email1") = "contactsEmail1" := by
  constructor
  · intro α result j hj hj2 relationship hrel link hlink record hrecord fv hfv
    have hmem : (snakeToCamel (link.name ++ "_" ++ fv.1), fv.2.value) ∈
        entryAssignments ((result.entry_list.getD []).get ⟨j, hj⟩)
          (some relationship) := by
      rw [entryAssignments]
      exact List.mem_append.mpr
        (Or.inr (mem_relAssignments relationship link hlink record hrecord
          fv hfv))
    refine ⟨hmem, ?_⟩
    rw [flattenEntryList_getElem result j hj hj2, hrel]
    exact mem_keysOf_flattenOneEntry _ _ _ _ hmem
  · decide

theorem claimC3_relationship_composite_keys_witness :
    (snakeToCamel ("contacts" ++ "_" ++ "email1"), "x@y.com") ∈
      entryAssignments ((exContacts.entry_list.getD []).get ⟨0, by decide⟩)
        (some exContactsRel) ∧
    snakeToCamel ("contacts" ++ "_" ++ "email1") ∈
      keysOf ((flattenEntryList exContacts).get ⟨0, by decide⟩) := by
  have h := claimC3_relationship_composite_keys.1 exContacts 0 (by decide)
    (by decide) exContactsRel rfl
    exContactsLink (by simp [exContactsRel])
    exContactsRecord (by simp [exContactsLink])
    ("email1", ⟨"email1", "x@y.com"⟩) (by simp [exContactsRecord])
  exact h

/-- Claim C4 counterexample: the own fields `"a_b"` and `"aB"` of the
same primary record normalize to the same internal key `"aB"`, so the
flattened record does not contain the first pair's value: the claim
that every own (remoteKey, value) pair appears in the output fails on
this response. -/
theorem claimC4_counterexample :
    ("a_b", NameValue.mk "a_b" "1") ∈
      ((exOwnCollision.entry_list.getD []).get
          ⟨0, by decide⟩).name_value_list.getD [] ∧
    ¬ lookupKV ((flattenEntryList exOwnCollision).get ⟨0, by decide⟩)
        (snakeToCamel "a_b") = some "1" ∧
    lookupKV ((flattenEntryList exOwnCollision).get ⟨0, by decide⟩)
        (snakeToCamel "a_b") = some "2" :=
  ⟨by decide, by decide, by decide⟩

/-- Claim C4 amended: `flattenEntryList` produces exactly one output
record per primary-record entry with input index `i` mapping to output
index `i`; and for every (remoteKey, value) pair of primary record `i`
whose normalized key `snakeToCamel remoteKey` is written exactly once
during record `i`'s flattening (no other own field and no relationship
field of that record normalizes to the same key), the output record at
`i` holds that key bound to that value; a colliding key instead holds
the last value written to it. -/
theorem claimC4_flatten_own_fields {α : Type} (result : EntryListResponse α) :
    (flattenEntryList result).length = (result.entry_list.getD []).length ∧
    ∀ (j : Nat) (hj : j < (result.entry_list.getD []).length)
      (hj2 : j < (flattenEntryList result).length)
      (kv : String × NameValue α),
      kv ∈ ((result.entry_list.getD []).get ⟨j, hj⟩).name_value_list.getD [] →
      (entryAssignments ((result.entry_list.getD []).get ⟨j, hj⟩)
          (result.relationship_list.getD [])[j]?).countP
          (fun p => p.1 = snakeToCamel kv.1) = 1 →
      lookupKV ((flattenEntryList result).get ⟨j, hj2⟩) (snakeToCamel kv.1) =
        some kv.2.value := by
  refine ⟨flattenEntryList_length result, ?_⟩
  intro j hj hj2 kv hkv hone
  rw [lookupKV_flattenEntryList result j hj hj2]
  apply lastAssign_of_unique _ _ _ hone
  rw [entryAssignments]
  exact List.mem_append.mpr (Or.inl (List.mem_map.mpr ⟨kv, hkv, rfl⟩))

theorem claimC4_flatten_own_fields_witness :
    (flattenEntryList exSimpleOwn).length =
      (exSimpleOwn.entry_list.getD []).length ∧
    lookupKV ((flattenEntryList exSimpleOwn).get ⟨0, by decide⟩)
        (snakeToCamel "first_name") = some "A" := by
  have h := claimC4_flatten_own_fields exSimpleOwn
  exact ⟨h.1,
    h.2 0 (by decide) (by decide) ("first_name", ⟨"first_name", "A"⟩)
      (by decide) (by decide)⟩

/-- Claim C6: the flattening pass is selection-agnostic — it takes only
the raw response (no selection argument exists to narrow it), and every
field present in the raw response, own field or relationship field,
appears (under its normalized key) in the corresponding output record;
so whatever own-field or relationship selection the caller sent, the
records contain every field the raw response holds. -/
theorem claimC6_selection_agnostic {α : Type} (result : EntryListResponse α)
    (j : Nat) (hj : j < (result.entry_list.getD []).length)
    (hj2 : j < (flattenEntryList result).length) :
    (∀ kv ∈ ((result.entry_list.getD []).get ⟨j, hj⟩).name_value_list.getD [],
      snakeToCamel kv.1 ∈ keysOf ((flattenEntryList result).get ⟨j, hj2⟩)) ∧
    (∀ relationship,
      (result.relationship_list.getD [])[j]? = some relationship →
      ∀ link ∈ relationship.link_list.getD [],
      ∀ record ∈ link.records.getD [],
      ∀ fv ∈ record.link_value.getD [],
        snakeToCamel (link.name ++ "_" ++ fv.1) ∈
          keysOf ((flattenEntryList result).get ⟨j, hj2⟩)) := by
  constructor
  · intro kv hkv
    rw [flattenEntryList_getElem result j hj hj2]
    apply mem_keysOf_flattenOneEntry _ _ _ kv.2.value
    rw [entryAssignments]
    exact List.mem_append.mpr (Or.inl (List.mem_map.mpr ⟨kv, hkv, rfl⟩))
  · intro relationship hrel link hlink record hrecord fv hfv
    rw [flattenEntryList_getElem result j hj hj2, hrel]
    apply mem_keysOf_flattenOneEntry _ _ _ fv.2.value
    rw [entryAssignments]
    exact List.mem_append.mpr
      (Or.inr (mem_relAssignments relationship link hlink record hrecord
        fv hfv))

theorem claimC6_selection_agnostic_witness :
    snakeToCamel "id" ∈
      keysOf ((flattenEntryList exContacts).get ⟨0, by decide⟩) ∧
    snakeToCamel ("contacts" ++ "_" ++ "email1") ∈
      keysOf ((flattenEntryList exContacts).get ⟨0, by decide⟩) := by
  have h := claimC6_selection_agnostic exContacts 0 (by decide) (by decide)
  refine ⟨h.1 ("id", ⟨"id", "1"⟩) (by decide), ?_⟩
  exact h.2 exContactsRel rfl
    exContactsLink (by simp [exContactsRel])
    exContactsRecord (by simp [exContactsLink])
    ("email1", ⟨"email1", "x@y.com"⟩) (by simp [exContactsRecord])

/-- Claim C7: `flattenEntryList` is a total function and treats every
missing component as empty: a missing `entry_list` yields the empty
output, a missing `name_value_list`, `link_list`, `records` or
`link_value` contributes no assignments, and a primary record whose
index has no relationship-expansion entry (relationship list shorter,
or simply absent) is flattened to exactly its own fields — its record
is the replay of the own-field assignments alone, and its keys are
exactly the normalized own-field keys. -/
theorem claimC7_flatten_total {α : Type} :
    (∀ rels : Option (List (RelEntry α)),
      flattenEntryList { entry_list := none, relationship_list := rels } =
        []) ∧
    (ownAssignments ({ name_value_list := none } : Entry α) = []) ∧
    (relAssignments ({ link_list := none } : RelEntry α) = []) ∧
    (∀ nm, relAssignments
        ({ link_list := some [{ name := nm, records := none }] } :
          RelEntry α) = []) ∧
    (∀ nm, relAssignments
        ({ link_list :=
             some [{ name := nm,
                     records := some [{ link_value := none }] }] } :
          RelEntry α) = []) ∧
    (∀ (result : EntryListResponse α) (j : Nat)
      (hj : j < (result.entry_list.getD []).length)
      (hj2 : j < (flattenEntryList result).length),
      (result.relationship_list.getD [])[j]? = none →
      (flattenEntryList result).get ⟨j, hj2⟩ =
        applyAssignments []
          (ownAssignments ((result.entry_list.getD []).get ⟨j, hj⟩)) ∧
      ∀ k, k ∈ keysOf ((flattenEntryList result).get ⟨j, hj2⟩) ↔
        k ∈ keysOf
          (ownAssignments ((result.entry_list.getD []).get ⟨j, hj⟩))) := by
  refine ⟨fun rels => rfl, rfl, rfl, fun nm => rfl, ?_, ?_⟩
  · intro nm
    simp [relAssignments]
  · intro result j hj hj2 hrel
    have hout : (flattenEntryList result).get ⟨j, hj2⟩ =
        applyAssignments []
          (ownAssignments ((result.entry_list.getD []).get ⟨j, hj⟩)) := by
      rw [flattenEntryList_getElem result j hj hj2, hrel,
        flattenOneEntry_eq_applyAssignments, entryAssignments]
      simp [relAssignmentsOpt]
    refine ⟨hout, ?_⟩
    intro k
    rw [hout, mem_keysOf_applyAssignments]
    simp [keysOf]

theorem claimC7_flatten_total_witness :
    flattenEntryList
        ({ entry_list := none,
           relationship_list := some [exContactsRel] } :
          EntryListResponse String) = [] ∧
    (flattenEntryList exNoRelEntry).get ⟨0, by decide⟩ =
      applyAssignments []
        (ownAssignments ((exNoRelEntry.entry_list.getD []).get
          ⟨0, by decide⟩)) ∧
    ("id" ∈ keysOf ((flattenEntryList exNoRelEntry).get ⟨0, by decide⟩) ↔
      "id" ∈ keysOf (ownAssignments ((exNoRelEntry.entry_list.getD []).get
        ⟨0, by decide⟩))) := by
  have h1 := (@claimC7_flatten_total String).1 (some [exContactsRel])
  have h6 := (@claimC7_flatten_total String).2.2.2.2.2 exNoRelEntry 0
    (by decide) (by decide) (by decide)
  exact ⟨h1, h6.1, h6.2 "id"⟩

/-! ### Spec-side deep conversion for the claim C9 comparison

`specSnakeVal` / `specCamelVal` are written from the spec's words, not
from the source: apply the scalar key conversion at every level,
descending into plain record values, mapping sequence values
element-wise with the same rules, and passing any value that is neither
a plain record nor a sequence through unchanged, never descending into
it. -/

mutual
def specSnakeVal : JsValue → JsValue
  | .vnull => .vnull
  | .prim s => .prim s
  | .exotic t => .exotic t
  | .arr xs => .arr (specSnakeList xs)
  | .obj fs => .obj (specSnakeFields fs)

def specSnakeList : List JsValue → List JsValue
  | [] => []
  | v :: rest => specSnakeVal v :: specSnakeList rest

def specSnakeFields : List (String × JsValue) → List (String × JsValue)
  | [] => []
  | (k, v) :: rest => (camelToSnake k, specSnakeVal v) :: specSnakeFields rest
end

mutual
def specCamelVal : JsValue → JsValue
  | .vnull => .vnull
  | .prim s => .prim s
  | .exotic t => .exotic t
  | .arr xs => .arr (specCamelList xs)
  | .obj fs => .obj (specCamelFields fs)

def specCamelList : List JsValue → List JsValue
  | [] => []
  | v :: rest => specCamelVal v :: specCamelList rest

def specCamelFields : List (String × JsValue) → List (String × JsValue)
  | [] => []
  | (k, v) :: rest => (snakeToCamel k, specCamelVal v) :: specCamelFields rest
end

/-! Values whose sequences contain only null, primitive or plain-record
elements: no sequence and no non-plain object directly inside a
sequence.  On these the source converters agree with the spec-side
ones. -/

mutual
def goodVal : JsValue → Bool
  | .vnull => true
  | .prim _ => true
  | .exotic _ => true
  | .arr xs => goodItems xs
  | .obj fs => goodFields fs

def goodItems : List JsValue → Bool
  | [] => true
  | .vnull :: rest => goodItems rest
  | .prim _ :: rest => goodItems rest
  | .exotic _ :: _ => false
  | .arr _ :: _ => false
  | .obj fs :: rest => goodFields fs && goodItems rest

def goodFields : List (String × JsValue) → Bool
  | [] => true
  | (_, v) :: rest => goodVal v && goodFields rest
end

mutual
lemma snakeVal_eq_spec : ∀ (v : JsValue), goodVal v = true →
    snakeVal v = specSnakeVal v
  | .vnull, _ => by simp [snakeVal, specSnakeVal]
  | .prim s, _ => by simp [snakeVal, specSnakeVal]
  | .exotic t, _ => by simp [snakeVal, specSnakeVal]
  | .arr xs, h => by
    rw [snakeVal, specSnakeVal,
      snakeItems_eq_spec xs (by simpa [goodVal] using h)]
  | .obj fs, h => by
    rw [snakeVal, specSnakeVal,
      snakeFields_eq_spec fs (by simpa [goodVal] using h)]

lemma snakeItems_eq_spec : ∀ (xs : List JsValue), goodItems xs = true →
    snakeItems xs = specSnakeList xs
  | [], _ => by simp [snakeItems, specSnakeList]
  | .vnull :: rest, h => by
    rw [snakeItems, specSnakeList, specSnakeVal,
      snakeItems_eq_spec rest (by simpa [goodItems] using h)]
  | .prim s :: rest, h => by
    rw [snakeItems, specSnakeList, specSnakeVal,
      snakeItems_eq_spec rest (by simpa [goodItems] using h)]
  | .exotic t :: rest, h => absurd h (by simp [goodItems])
  | .arr xs :: rest, h => absurd h (by simp [goodItems])
  | .obj fs :: rest, h => by
    have h2 : goodFields fs = true ∧ goodItems rest = true := by
      simpa [goodItems, Bool.and_eq_true] using h
    rw [snakeItems, specSnakeList, specSnakeVal,
      snakeFields_eq_spec fs h2.1, snakeItems_eq_spec rest h2.2]

lemma snakeFields_eq_spec : ∀ (fs : List (String × JsValue)),
    goodFields fs = true → snakeFields fs = specSnakeFields fs
  | [], _ => by simp [snakeFields, specSnakeFields]
  | (k, v) :: rest, h => by
    have h2 : goodVal v = true ∧ goodFields rest = true := by
      simpa [goodFields, Bool.and_eq_true] using h
    rw [snakeFields, specSnakeFields, snakeVal_eq_spec v h2.1,
      snakeFields_eq_spec rest h2.2]
end

mutual
lemma camelVal_eq_spec : ∀ (v : JsValue), goodVal v = true →
    camelVal v = specCamelVal v
  | .vnull, _ => by simp [camelVal, specCamelVal]
  | .prim s, _ => by simp [camelVal, specCamelVal]
  | .exotic t, _ => by simp [camelVal, specCamelVal]
  | .arr xs, h => by
    rw [camelVal, specCamelVal,
      camelItems_eq_spec xs (by simpa [goodVal] using h)]
  | .obj fs, h => by
    rw [camelVal, specCamelVal,
      camelFields_eq_spec fs (by simpa [goodVal] using h)]

lemma camelItems_eq_spec : ∀ (xs : List JsValue), goodItems xs = true →
    camelItems xs = specCamelList xs
  | [], _ => by simp [camelItems, specCamelList]
  | .vnull :: rest, h => by
    rw [camelItems, specCamelList, specCamelVal,
      camelItems_eq_spec rest (by simpa [goodItems] using h)]
  | .prim s :: rest, h => by
    rw [camelItems, specCamelList, specCamelVal,
      camelItems_eq_spec rest (by simpa [goodItems] using h)]
  | .exotic t :: rest, h => absurd h (by simp [goodItems])
  | .arr xs :: rest, h => absurd h (by simp [goodItems])
  | .obj fs :: rest, h => by
    have h2 : goodFields fs = true ∧ goodItems rest = true := by
      simpa [goodItems, Bool.and_eq_true] using h
    rw [camelItems, specCamelList, specCamelVal,
      camelFields_eq_spec fs h2.1, camelItems_eq_spec rest h2.2]

lemma camelFields_eq_spec : ∀ (fs : List (String × JsValue)),
    goodFields fs = true → camelFields fs = specCamelFields fs
  | [], _ => by simp [camelFields, specCamelFields]
  | (k, v) :: rest, h => by
    have h2 : goodVal v = true ∧ goodFields rest = true := by
      simpa [goodFields, Bool.and_eq_true] using h
    rw [camelFields, specCamelFields, camelVal_eq_spec v h2.1,
      camelFields_eq_spec rest h2.2]
end

/-- Claim C9 counterexample: a sequence directly inside a sequence is
not mapped element-wise — `objectToSnakeCase` rebuilds it as an
index-keyed plain record — and a non-plain object inside a sequence is
not passed through unchanged — it is descended into and rebuilt as an
empty plain record. -/
theorem claimC9_counterexample :
    objectToSnakeCase [("a", .arr [.arr [.prim "1"]])] =
      [("a", .arr [.obj [("0", .prim "1")]])] ∧
    ¬ objectToSnakeCase [("a", .arr [.arr [.prim "1"]])] =
        [("a", .arr [.arr [.prim "1"]])] ∧
    objectToSnakeCase [("a", .arr [.exotic "Date"])] =
      [("a", .arr [.obj []])] ∧
    ¬ objectToSnakeCase [("a", .arr [.exotic "Date"])] =
        [("a", .arr [.exotic "Date"])] := by
  refine ⟨rfl, ?_, rfl, ?_⟩
  · intro h
    have h2 : ([("a", JsValue.arr [.obj [("0", .prim "1")]])] :
        List (String × JsValue)) = [("a", .arr [.arr [.prim "1"]])] := by
      rw [← h]
      rfl
    simp at h2
  · intro h
    have h2 : ([("a", JsValue.arr [.obj []])] :
        List (String × JsValue)) = [("a", .arr [.exotic "Date"])] := by
      rw [← h]
      rfl
    simp at h2

/-- Claim C9 amended: the deep-structure variants apply the scalar key
conversion at every level, descending into plain record values and
passing through any direct value that is neither a plain record nor a
sequence; sequence values are mapped element-wise, but an element of a
sequence that is itself any non-null object — a plain record, a
sequence, or a non-plain object — is descended into through its
enumerable entries and rebuilt as a plain record (index-keyed for a
sequence element, empty for a non-plain object element), while null and
primitive elements pass through.  Consequently, on every input whose
sequences hold only null, primitive or plain-record elements, both
variants agree with the claimed element-wise recursion. -/
theorem claimC9_deep_conversion (fs : List (String × JsValue))
    (h : goodFields fs = true) :
    objectToSnakeCase fs = specSnakeFields fs ∧
    objectToCamelCase fs = specCamelFields fs :=
  ⟨snakeFields_eq_spec fs h, camelFields_eq_spec fs h⟩

theorem claimC9_deep_conversion_witness :
    goodFields [("aB", .obj [("cD", .arr [.prim "1", .vnull])])] = true ∧
    objectToSnakeCase [("aB", .obj [("cD", .arr [.prim "1", .vnull])])] =
      specSnakeFields [("aB", .obj [("cD", .arr [.prim "1", .vnull])])] ∧
    objectToCamelCase [("a_b", .obj [("c_d", .arr [.prim "1", .vnull])])] =
      specCamelFields [("a_b", .obj [("c_d", .arr [.prim "1", .vnull])])] :=
  ⟨rfl,
   (claimC9_deep_conversion
     [("aB", .obj [("cD", .arr [.prim "1", .vnull])])] rfl).1,
   (claimC9_deep_conversion
     [("a_b", .obj [("c_d", .arr [.prim "1", .vnull])])] rfl).2⟩

end SuiteCrm
